import Mathlib

/-!
A shallow embedding of the measurement-storage engine of the `autoscaling`
repository: the FIFO ring buffer `as::cache<T>` of
`src/autoscaling/include/util/cache.h` (with `math::inc_wrap`/`math::dec_wrap`
of `util/math.h`) and the type-indexed registry
`as::detail::measurement_storage<T>` with its free functions of
`src/autoscaling/include/measuring/measurement.h`.

Modelling conventions:
* `size_t` values (sizes, capacities, indices) are unbounded `Nat`.  The only
  spot where `size_t` wraparound is reachable is `math::dec_wrap` at
  `threshold = 0` (the C++ result is `2^64 - 1`, the `Nat` model yields `0`);
  that value arises only as `youngest_index()` of an empty capacity-0 cache,
  where it is never used to read storage and is only ever compared against
  itself in `begin()`/`end()`, so the observable behaviour agrees.
* Unchecked reads of `std::vector` storage are `List.get?`; a `none` result
  marks an out-of-bounds access (undefined behaviour in the C++).  The
  unchecked write of `cache::insert`'s full branch is `List.set` (which is the
  identity when out of bounds); whether that write is in bounds is tracked
  separately by `cache.insert_oob`.
* `std::thread::id` is `Nat`, with `0` standing for the default-constructed
  sentinel `thread_id_all_threads` that no running thread has.
* The clock (`as::now()`) and the calling thread's id are external inputs and
  are passed to the registry operations explicitly.
* Exceptions are modelled by `Option`/`Except` results.
-/

namespace as

/-- `math::inc_wrap`: increment `val`, wrapping to 0 once the incremented
value reaches `threshold`. -/
def inc_wrap (val threshold : Nat) : Nat :=
  if val + 1 ≥ threshold then 0 else val + 1

/-- `math::dec_wrap`: decrement `val`, wrapping to `threshold - 1` when `val`
is 0 (`val ≤ 0` in the C++, on an unsigned operand).  See the file comment for
the `threshold = 0` caveat. -/
def dec_wrap (val threshold : Nat) : Nat :=
  if val = 0 then threshold - 1 else val - 1

/-- `as::cache<T>`: `_storage` models the live elements of the
`std::vector<T>` and `_capacity` the capacity the constructor reserves
(`_storage.reserve(capacity)`); the vector only ever grows up to that
capacity, so `capacity()` (`_storage.capacity()`) stays the constructor's
argument. -/
structure cache (α : Type) where
  _storage : List α
  _head_idx : Nat
  _capacity : Nat
deriving DecidableEq

/-- The constructor `cache(size_t capacity)`. -/
def cache.create (α : Type) (capacity : Nat) : cache α :=
  { _storage := [], _head_idx := 0, _capacity := capacity }

/-- `cache::size`. -/
def cache.size (c : cache α) : Nat := c._storage.length

/-- `cache::capacity`. -/
def cache.capacity (c : cache α) : Nat := c._capacity

/-- `cache::is_full`. -/
def cache.is_full (c : cache α) : Bool := c.size == c.capacity

/-- `cache::insert`.  The full branch writes the `next_element()` slot —
`_storage[_head_idx]`, an unchecked `std::vector::operator[]` — and
wrap-increments `_head_idx`; the other branch is `push_back` plus the same
increment of `_head_idx`.  `List.set` models the full-branch write;
`cache.insert_oob` records whether that write is in bounds. -/
def cache.insert (c : cache α) (element : α) : cache α :=
  if c.is_full then
    { c with _storage := c._storage.set c._head_idx element,
             _head_idx := inc_wrap c._head_idx c.capacity }
  else
    { c with _storage := c._storage ++ [element],
             _head_idx := inc_wrap c._head_idx c.capacity }

/-- Whether `cache::insert` on `c` writes storage out of bounds: in the full
branch the write target is `_storage[_head_idx]`, which is out of bounds
exactly when `_head_idx ≥ _storage.size()` (this happens for capacity 0,
where the storage is empty but the branch still assigns slot 0). -/
def cache.insert_oob (c : cache α) : Bool :=
  c.is_full && decide (c.size ≤ c._head_idx)

/-- `cache::clear`. -/
def cache.clear (c : cache α) : cache α :=
  { c with _storage := [], _head_idx := 0 }

/-- `cache::youngest_index`. -/
def cache.youngest_index (c : cache α) : Nat :=
  dec_wrap c._head_idx c.capacity

/-- `cache::oldest_index`. -/
def cache.oldest_index (c : cache α) : Nat :=
  inc_wrap c.youngest_index c.size

/-- `cache::index_from_age`. -/
def cache.index_from_age (c : cache α) (age : Nat) : Nat :=
  (c.capacity + c.youngest_index - age) % c.capacity

/-- `cache::at` (the checked accessor): throws `std::out_of_range` when
`idx ≥ size()` — modelled by `none` — and otherwise performs the unchecked
read `_storage[index_from_age(idx)]`.  On every state reachable by inserts
that read is in bounds (proved below), so there `none` models exactly the
throw. -/
def cache.at' (c : cache α) (idx : Nat) : Option α :=
  if idx ≥ c.size then none
  else c._storage.get? (c.index_from_age idx)

/-- `cache::youngest` (a reference; undefined behaviour on an empty cache,
modelled by `none`). -/
def cache.youngest? (c : cache α) : Option α :=
  c._storage.get? c.youngest_index

/-- `cache::oldest` (same conventions as `cache.youngest?`). -/
def cache.oldest? (c : cache α) : Option α :=
  c._storage.get? c.oldest_index

/-- A sequence of `cache::insert` calls, in order. -/
def cache.insertAll (c : cache α) (vs : List α) : cache α :=
  vs.foldl cache.insert c

/-- The cache state after inserting the values `vs`, oldest first, into a
freshly constructed cache of the given capacity. -/
def reachCache (capacity : Nat) (vs : List α) : cache α :=
  (cache.create α capacity).insertAll vs

/-- The retained contents of a cache read oldest to youngest through the
checked accessor: entry `k` is `at(size() - 1 - k)`, so entry 0 is the oldest
element and the last entry the youngest. -/
def cache.retained (c : cache α) : List (Option α) :=
  (List.range c.size).map fun k => c.at' (c.size - 1 - k)

/-- `cache::iterator` (the mutable one): `_container` is the identity — the
address — of the `cache` object the iterator points into, `_offset` the fixed
starting offset and `_step` the number of steps taken. -/
structure cacheIterator where
  _container : Nat
  _offset : Nat
  _step : Nat
deriving DecidableEq

/-- `cache::iterator::operator!=`: compares container identity, starting
offset and step count. -/
def iterator_ne (a b : cacheIterator) : Bool :=
  decide (a._container ≠ b._container) || decide (a._offset ≠ b._offset) ||
    decide (a._step ≠ b._step)

/-- `cache::iterator::operator==`: `!operator!=(other)`. -/
def iterator_eq (a b : cacheIterator) : Bool :=
  !(iterator_ne a b)

/-- `cache::const_iterator`, same fields as the mutable iterator.  Its
`operator!=` is `const_iterator_ne` below; its `operator==` is written
`return !operator==(other);` in the source — it calls itself, so it has no
defining semantics as a total function (no function satisfies that equation;
proved below). -/
structure cacheConstIterator where
  _container : Nat
  _offset : Nat
  _step : Nat
deriving DecidableEq

/-- `cache::const_iterator::operator!=`. -/
def const_iterator_ne (a b : cacheConstIterator) : Bool :=
  decide (a._container ≠ b._container) || decide (a._offset ≠ b._offset) ||
    decide (a._step ≠ b._step)

/-- `iterator::get_index`/`const_iterator::get_index`: the storage index an
iterator with starting offset `offset` reads after `step` increments. -/
def cache.get_index (c : cache α) (offset step : Nat) : Nat :=
  (c.capacity + offset - step) % c.capacity

/-- The sequence of element reads a youngest-to-oldest iteration of the cache
performs (e.g. `std::copy(arg.begin(), arg.end(), ...)` in
`measurement_storage::container_to_vector`): `begin()` and `end()` share the
container and the offset `youngest_index()` and differ only in `_step` (0
versus `size()`), so the loop's `first != last` test reduces to
`_step != size()` and the loop visits steps `0, 1, ..., size() - 1`, reading
`_storage[get_index()]` at each step. -/
def cache.iterationReads (c : cache α) : List (Option α) :=
  (List.range c.size).map fun step => c._storage.get? (c.get_index c.youngest_index step)

/-- The state invariant `cache::insert` maintains when the capacity is
positive: the vector never outgrows the reserved capacity, `_head_idx` equals
the size while the cache still grows, and stays below the capacity once the
cache is full. -/
def cacheInv (c : cache α) : Prop :=
  c._storage.length ≤ c._capacity ∧
  (c._storage.length < c._capacity → c._head_idx = c._storage.length) ∧
  (c._storage.length = c._capacity → c._head_idx < c._capacity)

/-- `as::measurement<T>`: a timestamped value; `timestamp_t` (a
`high_resolution_clock::time_point`) is modelled as `Nat`. -/
structure measurement (α : Type) where
  timestamp : Nat
  data : α
deriving DecidableEq

/-- `std::thread::id`, modelled as `Nat`. -/
abbrev thread_id_t := Nat

/-- `thread_id_all_threads`: the default-constructed `std::thread::id`, the
sentinel value no running thread has (real thread ids are the ids `≠ 0`). -/
def thread_id_all_threads : thread_id_t := 0

/-- `as::detail::measurement_lookup`, the measurement-map key; the
specialised `std::equal_to` compares the name and the thread id. -/
structure measurement_lookup where
  thread_id : thread_id_t
  name : String
deriving DecidableEq

/-- `measurement_storage<T>::measurement_container_t`, the tagged union
`std::variant<std::vector<measurement<T>>, as::cache<measurement<T>>>`:
`Sum.inl` is the first alternative (the unbounded vector), the one a
default-constructed variant holds. -/
abbrev measurement_container_t (α : Type) :=
  List (measurement α) ⊕ cache (measurement α)

/-- `measurement_storage<T>::insert_measurement`'s visitor: `push_back` on
the vector alternative, `cache::insert` on the cache alternative. -/
def insert_measurement (m : measurement α) :
    measurement_container_t α → measurement_container_t α
  | Sum.inl vec => Sum.inl (vec ++ [m])
  | Sum.inr c => Sum.inr (c.insert m)

/-- `measurement_storage<T>::container_to_vector`: the vector alternative is
copied as is (wrapped in `some` only to share the result type with the other
branch); the cache alternative is copied by iterating `begin()` to `end()`,
i.e. youngest to oldest. -/
def container_to_vector :
    measurement_container_t α → List (Option (measurement α))
  | Sum.inl vec => vec.map some
  | Sum.inr c => c.iterationReads

/-- `as::detail::measurement_storage<T>`: the lock-protected
`unordered_map`s are association lists with unique keys (`_measurements`
keyed by `measurement_lookup`, `_measured_for_each_thread` keyed by the
name).  Locks serialise the member functions and are not part of the
sequential state. -/
structure measurement_storage (α : Type) where
  _measurements : List (measurement_lookup × measurement_container_t α)
  _measured_for_each_thread : List (String × Bool)
deriving DecidableEq

/-- The initial (default-constructed) storage. -/
def measurement_storage.init (α : Type) : measurement_storage α :=
  { _measurements := [], _measured_for_each_thread := [] }

/-- `_measurements[k]` used as `auto& c = _measurements[k]; mutate(c);`:
find the key's entry and replace its mapped container by `f` of it, or
default-construct an entry (an empty vector, the variant's first alternative)
for an absent key and apply `f` to that. -/
def mapUpdate (k : measurement_lookup)
    (f : measurement_container_t α → measurement_container_t α) :
    List (measurement_lookup × measurement_container_t α) →
      List (measurement_lookup × measurement_container_t α)
  | [] => [(k, f (Sum.inl []))]
  | kv :: rest =>
      if kv.1 = k then (kv.1, f kv.2) :: rest else kv :: mapUpdate k f rest

/-- `_measurements[k]` used as an access: the entry's container (the
default-constructed empty vector for an absent key) together with the map
after the access, which now surely holds the entry. -/
def mapAccess (k : measurement_lookup) :
    List (measurement_lookup × measurement_container_t α) →
      measurement_container_t α ×
        List (measurement_lookup × measurement_container_t α)
  | [] => (Sum.inl [], [(k, Sum.inl [])])
  | kv :: rest =>
      if kv.1 = k then (kv.2, kv :: rest)
      else ((mapAccess k rest).1, kv :: (mapAccess k rest).2)

/-- Looking a key up in `_measurements` without side effects (used to state
properties; the source's lookups go through `operator[]`). -/
def mapFind (k : measurement_lookup) :
    List (measurement_lookup × measurement_container_t α) →
      Option (measurement_container_t α)
  | [] => none
  | kv :: rest => if kv.1 = k then some kv.2 else mapFind k rest

/-- `_measured_for_each_thread[name]` read as an rvalue: `operator[]`
default-inserts `false` for an absent name and yields the mapped value; the
result is the value read together with the map after the access. -/
def flagRead (name : String) :
    List (String × Bool) → Bool × List (String × Bool)
  | [] => (false, [(name, false)])
  | kv :: rest =>
      if kv.1 = name then (kv.2, kv :: rest)
      else ((flagRead name rest).1, kv :: (flagRead name rest).2)

/-- `_measured_for_each_thread[name] = true`. -/
def flagSet (name : String) : List (String × Bool) → List (String × Bool)
  | [] => [(name, true)]
  | kv :: rest =>
      if kv.1 = name then (kv.1, true) :: rest else kv :: flagSet name rest

/-- `measurement_storage::add_measurement`. -/
def measurement_storage.add_measurement (s : measurement_storage α)
    (m : measurement α) (name : String) (thread_id : thread_id_t) :
    measurement_storage α :=
  { s with _measurements :=
      mapUpdate ⟨thread_id, name⟩ (insert_measurement m) s._measurements }

/-- `measurement_storage::get_copy_of_measurements`: the C++ reads the
container through `_measurements[lookup]`, which default-creates an empty
vector entry for an absent key, and returns `container_to_vector` of it. -/
def measurement_storage.get_copy_of_measurements (s : measurement_storage α)
    (name : String) (thread_id : thread_id_t) :
    List (Option (measurement α)) × measurement_storage α :=
  let r := mapAccess ⟨thread_id, name⟩ s._measurements
  (container_to_vector r.1, { s with _measurements := r.2 })

/-- The result-map assignment `ret[kv.first.thread_id] =
container_to_vector(kv.second)` of
`get_copy_of_measurements_for_all_threads`. -/
def retSet (t : thread_id_t) (v : List (Option (measurement α))) :
    List (thread_id_t × List (Option (measurement α))) →
      List (thread_id_t × List (Option (measurement α)))
  | [] => [(t, v)]
  | kv :: rest => if kv.1 = t then (kv.1, v) :: rest else kv :: retSet t v rest

/-- `measurement_storage::get_copy_of_measurements_for_all_threads`: walk
every entry of `_measurements`, skip those whose key's name differs, and
assign `container_to_vector` of the container into the result map under the
key's thread id (the `ALL_THREADS` sentinel entry is walked like any
other). -/
def measurement_storage.get_copy_of_measurements_for_all_threads
    (s : measurement_storage α) (name : String) :
    List (thread_id_t × List (Option (measurement α))) :=
  s._measurements.foldl
    (fun ret kv =>
      if kv.1.name ≠ name then ret
      else retSet kv.1.thread_id (container_to_vector kv.2) ret)
    []

/-- `measurement_storage::clear()`. -/
def measurement_storage.clear (s : measurement_storage α) :
    measurement_storage α :=
  { s with _measurements := [] }

/-- Modelled from the spec: the source's `measurement_storage::clear(name)`
applies `std::remove_if` to `std::unordered_map` iterators, which is
ill-formed C++ (`std::pair<const Key, T>` is not move-assignable, and the
`remove_if`/`erase` idiom does not apply to `unordered_map`), so that member
has no executable semantics to embed; modelled here as the spec's
`clearByName(name)` — drop every key (across all thread scopes) whose name
matches, leave every other entry untouched. -/
def measurement_storage.clear_name (s : measurement_storage α)
    (name : String) : measurement_storage α :=
  { s with _measurements := s._measurements.filter fun kv => kv.1.name ≠ name }

/-- `measurement_storage::is_measured_for_each_thread` (a read through
`operator[]`, so it default-inserts `false` for an unseen name). -/
def measurement_storage.is_measured_for_each_thread
    (s : measurement_storage α) (name : String) :
    Bool × measurement_storage α :=
  let r := flagRead name s._measured_for_each_thread
  (r.1, { s with _measured_for_each_thread := r.2 })

/-- `measurement_storage::set_measured_for_each_thread`. -/
def measurement_storage.set_measured_for_each_thread
    (s : measurement_storage α) (name : String) : measurement_storage α :=
  { s with _measured_for_each_thread :=
      flagSet name s._measured_for_each_thread }

/-- The value `is_measured_for_each_thread(name)` reports on state `s`
(reading the flag map with default `false`), as a side-effect-free view. -/
def flagView (s : measurement_storage α) (name : String) : Bool :=
  (s.is_measured_for_each_thread name).1

/-- The error of §7 of the spec: a read used the wrong thread-scope mode
(`InvalidModeError`; the source throws `std::runtime_error`). -/
inductive RegistryError where
  | invalid_mode
deriving DecidableEq

/-- `as::add_measurement<T>(name, value)`: `timestamp` is the `now()` reading
and `caller` the calling thread's id (`std::this_thread::get_id()`), both
external inputs of the model; the effective scope key is the caller's id when
the name is thread-split at call time and `thread_id_all_threads`
otherwise. -/
def add_measurement (s : measurement_storage α) (name : String) (value : α)
    (timestamp : Nat) (caller : thread_id_t) : measurement_storage α :=
  let r := s.is_measured_for_each_thread name
  let tid := if r.1 then caller else thread_id_all_threads
  r.2.add_measurement ⟨timestamp, value⟩ name tid

/-- `as::get_measurements<T>(name)` (the unimplemented time-range filter
arguments play no role): fails with the mode error when the name is
thread-split, else copies the `ALL_THREADS`-keyed container. -/
def get_measurements (s : measurement_storage α) (name : String) :
    Except RegistryError (List (Option (measurement α))) ×
      measurement_storage α :=
  let r := s.is_measured_for_each_thread name
  if r.1 then (Except.error RegistryError.invalid_mode, r.2)
  else
    let g := r.2.get_copy_of_measurements name thread_id_all_threads
    (Except.ok g.1, g.2)

/-- `as::get_measurements_for_thread<T>(name, thread_id)`. -/
def get_measurements_for_thread (s : measurement_storage α) (name : String)
    (thread_id : thread_id_t) :
    Except RegistryError (List (Option (measurement α))) ×
      measurement_storage α :=
  let r := s.is_measured_for_each_thread name
  if r.1 then
    let g := r.2.get_copy_of_measurements name thread_id
    (Except.ok g.1, g.2)
  else (Except.error RegistryError.invalid_mode, r.2)

/-- `as::get_measurements_for_all_threads<T>(name)`. -/
def get_measurements_for_all_threads (s : measurement_storage α)
    (name : String) :
    Except RegistryError
        (List (thread_id_t × List (Option (measurement α)))) ×
      measurement_storage α :=
  let r := s.is_measured_for_each_thread name
  if r.1 then (Except.ok (r.2.get_copy_of_measurements_for_all_threads name), r.2)
  else (Except.error RegistryError.invalid_mode, r.2)

/-- `as::clear_measurements<T>()`. -/
def clear_measurements (s : measurement_storage α) : measurement_storage α :=
  s.clear

/-- `as::clear_measurements<T>(name)` (delegates to the spec-modelled
`measurement_storage.clear_name`, see there). -/
def clear_measurements_name (s : measurement_storage α) (name : String) :
    measurement_storage α :=
  s.clear_name name

/-- `as::set_cache_size<T>(name, cache_size)`: the source's body is empty. -/
def set_cache_size (s : measurement_storage α) (name : String)
    (cache_size : Nat) : measurement_storage α :=
  s

/-- `as::measure_for_each_thread<T>(name)`. -/
def measure_for_each_thread (s : measurement_storage α) (name : String) :
    measurement_storage α :=
  s.set_measured_for_each_thread name

/-- One public registry operation together with its external inputs (the
clock reading of a record, the calling thread's id). -/
inductive RegistryOp (α : Type) where
  | record (name : String) (value : α) (timestamp : Nat) (caller : thread_id_t)
  | fetch (name : String)
  | fetchForThread (name : String) (thread_id : thread_id_t)
  | fetchForAllThreads (name : String)
  | clearAll
  | clearByName (name : String)
  | setCapacity (name : String) (cache_size : Nat)
  | markThreadSplit (name : String)
  | isThreadSplit (name : String)
deriving DecidableEq

/-- The state transition of one registry operation (results discarded). -/
def stepOp (s : measurement_storage α) : RegistryOp α → measurement_storage α
  | RegistryOp.record name v ts caller => add_measurement s name v ts caller
  | RegistryOp.fetch name => (get_measurements s name).2
  | RegistryOp.fetchForThread name tid =>
      (get_measurements_for_thread s name tid).2
  | RegistryOp.fetchForAllThreads name =>
      (get_measurements_for_all_threads s name).2
  | RegistryOp.clearAll => clear_measurements s
  | RegistryOp.clearByName name => clear_measurements_name s name
  | RegistryOp.setCapacity name sz => set_cache_size s name sz
  | RegistryOp.markThreadSplit name => measure_for_each_thread s name
  | RegistryOp.isThreadSplit name => (s.is_measured_for_each_thread name).2

/-- Running a sequence of registry operations. -/
def runOps (s : measurement_storage α) (ops : List (RegistryOp α)) :
    measurement_storage α :=
  ops.foldl stepOp s

/-- Every measurement container of the state is the unbounded-vector
alternative of the union. -/
def unboundedOnly (s : measurement_storage α) : Prop :=
  ∀ kv ∈ s._measurements, ∃ vec, kv.2 = Sum.inl vec

/-- Side-effect-free lookup in the result map of
`get_copy_of_measurements_for_all_threads` (used to state properties). -/
def retFind (t : thread_id_t) :
    List (thread_id_t × List (Option (measurement α))) →
      Option (List (Option (measurement α)))
  | [] => none
  | kv :: rest => if kv.1 = t then some kv.2 else retFind t rest

/-- A storage state holding a bounded history (two measurements, capacity 2)
under the `ALL_THREADS` scope of name `"x"`.  The registry itself never
creates the bounded alternative (see C10), but `container_to_vector` and the
fetch path accept it; this state exhibits the flattening order. -/
def c2State : measurement_storage Nat :=
  { _measurements :=
      [(⟨thread_id_all_threads, "x"⟩,
        Sum.inr (reachCache 2 [⟨0, 10⟩, ⟨1, 20⟩]))],
    _measured_for_each_thread := [] }

/-- The scenario of C8: record value 1 under `"x"` before the thread-split
switch (it lands under the `ALL_THREADS` sentinel), mark `"x"` thread-split,
then record value 2 from the real thread 5. -/
def c8Scenario : measurement_storage Nat :=
  add_measurement
    (measure_for_each_thread
      (add_measurement (measurement_storage.init Nat) "x" 1 0 7) "x")
    "x" 2 1 5

end as

namespace as

/-! ### Arithmetic and cache helper lemmas -/

/-- Reduce a remainder whose argument is below twice the modulus. -/
theorem mod_of_lt_two_mul {a c : Nat} (hc : 0 < c) (h : a < 2 * c) :
    a % c = if a < c then a else a - c := by
  split
  · exact Nat.mod_eq_of_lt (by assumption)
  · rw [Nat.mod_eq_sub_mod (Nat.le_of_not_lt (by assumption))]
    exact Nat.mod_eq_of_lt (by omega)

theorem cache.is_full_iff {α : Type} (c : cache α) :
    c.is_full = true ↔ c._storage.length = c._capacity := by
  simp [cache.is_full, cache.size, cache.capacity]


/-- The effect of one `insert` on a capacity-positive invariant state: the
invariant is preserved, the size grows up to the capacity, the freshly
inserted element is the one of age 0, and every older retained element's age
grows by one. -/
theorem cache.insert_spec {α : Type} (c : cache α) (x : α)
    (hcap : 0 < c._capacity) (hinv : cacheInv c) :
    cacheInv (c.insert x) ∧
    (c.insert x)._capacity = c._capacity ∧
    (c.insert x).size = min (c.size + 1) c._capacity ∧
    (c.insert x).at' 0 = some x ∧
    ∀ age, 0 < age → age < (c.insert x).size →
      (c.insert x).at' age = c.at' (age - 1) := by
  obtain ⟨hle, hgrow, hfull⟩ := hinv
  rcases Nat.lt_or_ge c._storage.length c._capacity with hlt | hge
  · -- the cache still grows: `push_back` branch
    have hb : c.is_full = false := by
      simp [cache.is_full, cache.size, cache.capacity]; omega
    have hhead : c._head_idx = c._storage.length := hgrow hlt
    have hins : c.insert x =
        { c with _storage := c._storage ++ [x],
                 _head_idx := inc_wrap c._storage.length c._capacity } := by
      simp [cache.insert, hb, cache.capacity, hhead]
    have hy : dec_wrap (inc_wrap c._storage.length c._capacity) c._capacity
        = c._storage.length := by
      unfold inc_wrap dec_wrap
      by_cases h : c._storage.length + 1 ≥ c._capacity
      · rw [if_pos h, if_pos rfl]; omega
      · rw [if_neg h, if_neg (by omega)]; omega
    rw [hins]
    refine ⟨⟨?_, ?_, ?_⟩, rfl, ?_, ?_, ?_⟩
    · simp; omega
    · intro h1
      simp only [List.length_append, List.length_cons, List.length_nil] at h1 ⊢
      unfold inc_wrap
      rw [if_neg (by omega)]
    · intro h1
      simp only [List.length_append, List.length_cons, List.length_nil] at h1
      unfold inc_wrap
      rw [if_pos (by omega)]
      exact hcap
    · simp [cache.size]; omega
    · simp only [cache.at', cache.size, cache.index_from_age, cache.capacity,
        cache.youngest_index, hy]
      rw [if_neg (by simp only [List.length_append, List.length_cons,
        List.length_nil]; omega)]
      rw [Nat.sub_zero, mod_of_lt_two_mul hcap (by omega),
        if_neg (by omega)]
      have h1 : c._capacity + c._storage.length - c._capacity
          = c._storage.length := by omega
      rw [h1, List.get?_concat_length]
    · intro age hpos hage
      simp only [cache.size, List.length_append, List.length_cons,
        List.length_nil] at hage
      have hyo : dec_wrap c._head_idx c._capacity
          = c._storage.length - 1 := by
        rw [hhead]
        unfold dec_wrap
        rw [if_neg (by omega)]
      simp only [cache.at', cache.size, cache.index_from_age, cache.capacity,
        cache.youngest_index, hy, hyo]
      rw [if_neg (by simp only [List.length_append, List.length_cons,
        List.length_nil]; omega), if_neg (by omega)]
      rw [mod_of_lt_two_mul hcap (by omega), mod_of_lt_two_mul hcap (by omega)]
      rw [if_neg (by omega), if_neg (by omega)]
      have h1 : c._capacity + c._storage.length - age - c._capacity
          = c._storage.length - age := by omega
      have h2 : c._capacity + (c._storage.length - 1) - (age - 1) - c._capacity
          = c._storage.length - age := by omega
      rw [h1, h2, List.get?_append (by omega)]
  · -- the cache is full: overwrite branch
    have heq : c._storage.length = c._capacity := by omega
    have hb : c.is_full = true := (cache.is_full_iff c).mpr heq
    have hhd : c._head_idx < c._capacity := hfull heq
    have hins : c.insert x =
        { c with _storage := c._storage.set c._head_idx x,
                 _head_idx := inc_wrap c._head_idx c._capacity } := by
      simp [cache.insert, hb, cache.capacity]
    have hy : dec_wrap (inc_wrap c._head_idx c._capacity) c._capacity
        = c._head_idx := by
      unfold inc_wrap dec_wrap
      by_cases h : c._head_idx + 1 ≥ c._capacity
      · rw [if_pos h, if_pos rfl]; omega
      · rw [if_neg h, if_neg (by omega)]; omega
    rw [hins]
    refine ⟨⟨?_, ?_, ?_⟩, rfl, ?_, ?_, ?_⟩
    · simp [heq]
    · intro h1
      simp only [List.length_set] at h1
      omega
    · intro h1
      show inc_wrap c._head_idx c._capacity < c._capacity
      unfold inc_wrap
      split <;> omega
    · simp [cache.size, heq]
    · simp only [cache.at', cache.size, cache.index_from_age, cache.capacity,
        cache.youngest_index, hy]
      rw [if_neg (by simp only [List.length_set]; omega)]
      rw [Nat.sub_zero, mod_of_lt_two_mul hcap (by omega), if_neg (by omega)]
      have h1 : c._capacity + c._head_idx - c._capacity = c._head_idx := by
        omega
      rw [h1, List.get?_set_eq_of_lt x (by omega)]
    · intro age hpos hage
      simp only [cache.size, List.length_set] at hage
      simp only [cache.at', cache.size, cache.index_from_age, cache.capacity,
        cache.youngest_index, hy]
      rw [if_neg (by simp only [List.length_set]; omega), if_neg (by omega)]
      rw [mod_of_lt_two_mul hcap (by omega)]
      unfold dec_wrap
      by_cases h0 : c._head_idx = 0
      · rw [if_pos h0, h0]
        rw [mod_of_lt_two_mul hcap (by omega)]
        rw [if_pos (by omega), if_neg (by omega)]
        have h1 : c._capacity + (c._capacity - 1) - (age - 1) - c._capacity
            = c._capacity + 0 - age := by omega
        rw [h1]
        rw [List.get?_set_ne x _ (by omega)]
      · rw [if_neg h0]
        have h1 : c._capacity + (c._head_idx - 1) - (age - 1)
            = c._capacity + c._head_idx - age := by omega
        rw [h1]
        rw [mod_of_lt_two_mul hcap (by omega)]
        by_cases hc : c._capacity + c._head_idx - age < c._capacity
        · rw [if_pos hc]
          rw [List.get?_set_ne x _ (by omega)]
        · rw [if_neg hc]
          rw [List.get?_set_ne x _ (by omega)]

/-- Inserting into a capacity-0 cache leaves the (observable) state
unchanged: the full branch is taken, the slot-0 write lands out of bounds on
the empty storage, and `inc_wrap` keeps the head at 0. -/
theorem cache.insert_create_zero {α : Type} (x : α) :
    (cache.create α 0).insert x = cache.create α 0 := rfl

/-- Every state reached by inserts into a capacity-0 cache is the fresh
capacity-0 cache itself. -/
theorem reachCache_zero {α : Type} (vs : List α) :
    reachCache 0 vs = cache.create α 0 := by
  induction vs with
  | nil => rfl
  | cons v rest ih =>
      show (((cache.create α 0).insert v).insertAll rest) = cache.create α 0
      rw [cache.insert_create_zero]
      exact ih

/-- Characterisation of every cache state reached by inserting `vs` into a
fresh cache of positive capacity: the invariant holds, the capacity is
unchanged, the size is `min vs.length capacity`, and the element of age
`age` is the `(age + 1)`-th newest inserted value. -/
theorem reachCache_spec {α : Type} (capacity : Nat) (hcap : 0 < capacity)
    (vs : List α) :
    cacheInv (reachCache capacity vs) ∧
    (reachCache capacity vs)._capacity = capacity ∧
    (reachCache capacity vs).size = min vs.length capacity ∧
    ∀ age, age < (reachCache capacity vs).size →
      (reachCache capacity vs).at' age = vs.get? (vs.length - 1 - age) := by
  induction vs using List.reverseRecOn with
  | nil =>
      refine ⟨⟨by simp [reachCache, cache.insertAll, cache.create], ?_, ?_⟩,
        rfl, by simp [reachCache, cache.insertAll, cache.create, cache.size], ?_⟩
      · intro _; rfl
      · intro h1
        simp [reachCache, cache.insertAll, cache.create] at h1
        omega
      · intro age hage
        simp [reachCache, cache.insertAll, cache.create, cache.size] at hage
  | append_singleton ws v ih =>
      obtain ⟨hinv, hcapeq, hsize, hat⟩ := ih
      have hstep := cache.insert_spec (reachCache capacity ws) v
        (by rw [hcapeq]; exact hcap) hinv
      have hre : reachCache capacity (ws ++ [v])
          = (reachCache capacity ws).insert v := by
        simp [reachCache, cache.insertAll, List.foldl_append]
      rw [hre]
      obtain ⟨hinv', hcap', hsize', hat0, hats⟩ := hstep
      refine ⟨hinv', by rw [hcap', hcapeq], ?_, ?_⟩
      · rw [hsize', hsize, hcapeq]
        simp only [List.length_append, List.length_cons, List.length_nil]
        omega
      · intro age hage
        rcases Nat.eq_zero_or_pos age with h0 | hpos
        · subst h0
          rw [hat0]
          have : ws.length + 1 - 1 - 0 = ws.length := by omega
          simp only [List.length_append, List.length_cons, List.length_nil,
            this]
          exact (List.get?_concat_length ws v).symm
        · rw [hats age hpos hage]
          have hage' : age - 1 < (reachCache capacity ws).size := by
            rw [hsize]
            rw [hsize', hsize, hcapeq] at hage
            omega
          rw [hat (age - 1) hage']
          have hlen : age ≤ (reachCache capacity ws).size := by
            rw [hsize', hsize, hcapeq] at hage
            rw [hsize]
            omega
          have hwslen : age ≤ ws.length := by
            rw [hsize] at hlen
            omega
          have h1 : ws.length - 1 - (age - 1) = ws.length - age := by omega
          simp only [List.length_append, List.length_cons, List.length_nil]
          rw [h1]
          have h3 : ws.length + 1 - 1 - age = ws.length - age := by omega
          rw [h3]
          have hlt : ws.length - age < ws.length := by omega
          exact (List.get?_append hlt).symm

/-- On a full cache (positive capacity, invariant state) `oldest()` is the
element of age `size - 1` and `youngest()` the element of age 0. -/
theorem cache.full_ends {α : Type} (c : cache α) (hcap : 0 < c._capacity)
    (hinv : cacheInv c) (hfull : c._storage.length = c._capacity) :
    c.oldest? = c.at' (c._capacity - 1) ∧ c.youngest? = c.at' 0 := by
  have hhd : c._head_idx < c._capacity := hinv.2.2 hfull
  have hylt : c.youngest_index < c._capacity := by
    unfold cache.youngest_index dec_wrap cache.capacity
    split <;> omega
  constructor
  · unfold cache.oldest? cache.at' cache.oldest_index
    rw [if_neg (by unfold cache.size; omega)]
    congr 1
    unfold cache.index_from_age cache.size cache.capacity inc_wrap
    rw [hfull]
    rw [mod_of_lt_two_mul hcap (by omega)]
    have h1 : c._capacity + c.youngest_index - (c._capacity - 1)
        = c.youngest_index + 1 := by omega
    rw [h1]
    by_cases h2 : c.youngest_index + 1 ≥ c._capacity
    · rw [if_pos h2, if_neg (by omega)]
      omega
    · rw [if_neg h2, if_pos (by omega)]
  · unfold cache.youngest? cache.at'
    rw [if_neg (by unfold cache.size; omega)]
    congr 1
    unfold cache.index_from_age cache.capacity
    rw [Nat.sub_zero, mod_of_lt_two_mul hcap (by omega), if_neg (by omega)]
    omega

/-- C1, ring invariant of the Bounded History: for every capacity `c` and
every sequence of `n ≥ c` values inserted into a fresh history of capacity
`c`, afterwards `size() = c`, reading the retained elements oldest to
youngest through `at` yields exactly the last `c` inserted values in
insertion order, and (for positive capacity) `oldest()` is the
`(n - c + 1)`-th inserted value and `youngest()` the `n`-th. -/
theorem C1_ring_invariant {α : Type} (capacity : Nat) (vs : List α)
    (hc : capacity ≤ vs.length) :
    (reachCache capacity vs).size = capacity ∧
    (reachCache capacity vs).retained
      = (vs.drop (vs.length - capacity)).map some ∧
    (0 < capacity →
      (reachCache capacity vs).oldest? = vs.get? (vs.length - capacity) ∧
      (reachCache capacity vs).youngest? = vs.get? (vs.length - 1)) := by
  rcases Nat.eq_zero_or_pos capacity with h0 | hcap
  · subst h0
    rw [reachCache_zero]
    refine ⟨rfl, ?_, by intro h; exact absurd h (by omega)⟩
    simp [cache.retained, cache.create, cache.size, List.drop_length]
  · obtain ⟨hinv, hcapeq, hsize, hat⟩ := reachCache_spec capacity hcap vs
    have hsz : (reachCache capacity vs).size = capacity := by
      rw [hsize]; omega
    have hfull : (reachCache capacity vs)._storage.length = capacity := hsz
    refine ⟨hsz, ?_, ?_⟩
    · apply List.ext_get?
      intro k
      simp only [cache.retained, hsz]
      rw [List.get?_map, List.get?_map]
      by_cases hk : k < capacity
      · rw [List.get?_range hk]
        have hage : capacity - 1 - k < (reachCache capacity vs).size := by
          rw [hsz]; omega
        have hdk : k < (vs.drop (vs.length - capacity)).length := by
          rw [List.length_drop]; omega
        rw [List.get?_eq_get hdk]
        simp only [Option.map_some']
        rw [hat (capacity - 1 - k) hage]
        have h1 : vs.length - 1 - (capacity - 1 - k)
            = vs.length - capacity + k := by omega
        rw [h1]
        rw [List.get_drop' vs]
        rw [List.get?_eq_get (by omega)]
      · rw [List.get?_eq_none.mpr (by simp [List.length_range]; omega),
          List.get?_eq_none.mpr (by rw [List.length_drop]; omega)]
        rfl
    · intro _
      have hends := cache.full_ends (reachCache capacity vs)
        (by rw [hcapeq]; exact hcap) hinv (by rw [hcapeq]; exact hfull)
      obtain ⟨hold, hyoung⟩ := hends
      constructor
      · rw [hold, hcapeq]
        rw [hat (capacity - 1) (by rw [hsz]; omega)]
        congr 1
        omega
      · rw [hyoung]
        rw [hat 0 (by rw [hsz]; omega)]
        simp

/-- Witness for C1 at the spec's own scenario: capacity 4, inserts
`[1, 2, 3, 4, 5, 6]`. -/
theorem C1_ring_invariant_witness :
    (reachCache 4 [1, 2, 3, 4, 5, 6] : cache Nat).size = 4 ∧
    (reachCache 4 ([1, 2, 3, 4, 5, 6] : List Nat)).retained
      = (([1, 2, 3, 4, 5, 6] : List Nat).drop
          (([1, 2, 3, 4, 5, 6] : List Nat).length - 4)).map some ∧
    (0 < 4 →
      (reachCache 4 ([1, 2, 3, 4, 5, 6] : List Nat)).oldest?
        = ([1, 2, 3, 4, 5, 6] : List Nat).get?
            (([1, 2, 3, 4, 5, 6] : List Nat).length - 4) ∧
      (reachCache 4 ([1, 2, 3, 4, 5, 6] : List Nat)).youngest?
        = ([1, 2, 3, 4, 5, 6] : List Nat).get?
            (([1, 2, 3, 4, 5, 6] : List Nat).length - 1)) :=
  C1_ring_invariant 4 [1, 2, 3, 4, 5, 6] (by decide)

/-- Counterexample to C3 as stated: on the concrete input — a capacity-0
history (in any of its reachable states, all equal to the fresh one) and any
insert — the full branch's write to `_storage[_head_idx]` IS an out-of-bounds
storage access (slot 0 of an empty vector), while the history is indeed
always full. -/
theorem C3_counterexample :
    cache.insert_oob (cache.create Nat 0) = true ∧
    (cache.create Nat 0).is_full = true := by decide

/-- C3 as amended: a capacity-0 history is always full, every insert leaves
the (observable) state unchanged and nothing is ever retained — but each
insert performs an out-of-bounds write to storage slot 0 (undefined
behaviour) instead of skipping the storage access. -/
theorem C3_capacity_zero {α : Type} (vs : List α) :
    reachCache 0 vs = cache.create α 0 ∧
    (reachCache 0 vs).is_full = true ∧
    (reachCache 0 vs).size = 0 ∧
    (reachCache 0 vs).retained = [] ∧
    (∀ x : α, (reachCache 0 vs).insert x = reachCache 0 vs) ∧
    cache.insert_oob (reachCache 0 vs) = true := by
  have h := reachCache_zero (α := α) vs
  rw [h]
  exact ⟨rfl, rfl, rfl, rfl, fun x => cache.insert_create_zero x, rfl⟩

/-- C4, age-indexed access: on every state reached by a sequence of inserts,
for `age < size()` the checked accessor `at(age)` yields the
`(size() - age)`-th entry (1-based) of the retained suffix of the insertion
sequence — age 0 is the most recently inserted element and increasing age
walks toward the oldest — and `at(age)` fails (`std::out_of_range`) exactly
when `age ≥ size()`. -/
theorem C4_age_indexing {α : Type} (capacity : Nat) (vs : List α)
    (age : Nat) :
    (age < (reachCache capacity vs).size →
      (reachCache capacity vs).at' age =
        (vs.drop (vs.length - (reachCache capacity vs).size)).get?
          ((reachCache capacity vs).size - 1 - age)) ∧
    ((reachCache capacity vs).at' age = none ↔
      (reachCache capacity vs).size ≤ age) := by
  rcases Nat.eq_zero_or_pos capacity with h0 | hcap
  · subst h0
    rw [reachCache_zero]
    constructor
    · intro hlt
      exact absurd hlt (by simp [cache.create, cache.size])
    · constructor
      · intro _
        simp [cache.create, cache.size]
      · intro _
        unfold cache.at'
        rw [if_pos (by simp [cache.create, cache.size])]
  · obtain ⟨hinv, hcapeq, hsize, hat⟩ := reachCache_spec capacity hcap vs
    constructor
    · intro hage
      rw [hat age hage, List.get?_drop]
      congr 1
      rw [hsize] at hage ⊢
      omega
    · constructor
      · intro hnone
        by_contra hlt
        push_neg at hlt
        have hval := hat age hlt
        rw [hnone] at hval
        have hn : vs.length - 1 - age < vs.length := by
          rw [hsize] at hlt
          omega
        rw [List.get?_eq_get hn] at hval
        exact Option.noConfusion hval
      · intro hge
        unfold cache.at'
        rw [if_pos hge]

/-- C7, iterator equality: the mutable iterator's `==` is true exactly when
container identity, starting offset and step count all agree (so iterators
over different containers or different starting offsets are never equal),
and the const iterator's `!=` compares the same three fields — but the const
iterator's `==` (`return !operator==(other);` in the source) calls itself:
no function at all satisfies its defining equation, so that comparison never
terminates with a result. -/
theorem C7_iterator_equality :
    (∀ a b : cacheIterator, iterator_eq a b = true ↔
      a._container = b._container ∧ a._offset = b._offset ∧
        a._step = b._step) ∧
    (∀ a b : cacheConstIterator, const_iterator_ne a b = false ↔
      a._container = b._container ∧ a._offset = b._offset ∧
        a._step = b._step) ∧
    ¬ ∃ eq_fn : cacheConstIterator → cacheConstIterator → Bool,
      ∀ a b, eq_fn a b = !(eq_fn a b) := by
  refine ⟨?_, ?_, ?_⟩
  · intro a b
    simp [iterator_eq, iterator_ne, and_assoc]
  · intro a b
    simp [const_iterator_ne, and_assoc]
  · rintro ⟨f, hf⟩
    have h := hf ⟨0, 0, 0⟩ ⟨0, 0, 0⟩
    cases hv : f ⟨0, 0, 0⟩ ⟨0, 0, 0⟩ <;> simp [hv] at h

/-- Flattening a reachable cache state by iterating `begin()` to `end()`
yields the retained measurements newest first: the reverse of the
oldest-to-newest suffix of the insertion sequence. -/
theorem reachCache_iterationReads {α : Type} (capacity : Nat)
    (vs : List α) :
    (reachCache capacity vs).iterationReads
      = ((vs.drop (vs.length - (reachCache capacity vs).size)).reverse).map
          some := by
  rcases Nat.eq_zero_or_pos capacity with h0 | hcap
  · subst h0
    rw [reachCache_zero]
    simp [cache.iterationReads, cache.create, cache.size, List.drop_length]
  · obtain ⟨hinv, hcapeq, hsize, hat⟩ := reachCache_spec capacity hcap vs
    have hslen : (reachCache capacity vs).size ≤ vs.length := by
      rw [hsize]; omega
    apply List.ext_get?
    intro k
    simp only [cache.iterationReads]
    rw [List.get?_map, List.get?_map]
    by_cases hk : k < (reachCache capacity vs).size
    · rw [List.get?_range hk]
      rw [List.get?_reverse (by rw [List.length_drop]; omega)]
      rw [List.get?_drop]
      simp only [Option.map_some']
      have hidx : (reachCache capacity vs)._storage.get?
          ((reachCache capacity vs).get_index
            (reachCache capacity vs).youngest_index k)
          = (reachCache capacity vs).at' k := by
        unfold cache.at' cache.get_index cache.index_from_age
        rw [if_neg (by omega)]
      rw [hidx, hat k hk]
      have h1 : vs.length - (reachCache capacity vs).size +
          ((vs.drop (vs.length - (reachCache capacity vs).size)).length
            - 1 - k) = vs.length - 1 - k := by
        rw [List.length_drop]
        omega
      rw [h1]
      obtain ⟨w, hw⟩ : ∃ w, vs.get? (vs.length - 1 - k) = some w := by
        rw [List.get?_eq_get (by omega)]
        exact ⟨_, rfl⟩
      rw [hw]
      rfl
    · rw [List.get?_eq_none.mpr (by rw [List.length_range]; omega),
        List.get?_eq_none.mpr
          (by rw [List.length_reverse, List.length_drop]; omega)]
      rfl

/-- C2 as amended: for a name that is not thread-split, fetch returns a
point-in-time copy (`container_to_vector`) of the `ALL_THREADS`-keyed
container; the copy preserves an unbounded log verbatim — oldest to newest,
the order `record` appends in — but flattens a bounded history newest first
(youngest to oldest), not oldest to newest. -/
theorem C2_fetch_order {α : Type} :
    ∀ (s : measurement_storage α) (name : String),
      (flagView s name = false →
        (get_measurements s name).1 = Except.ok (container_to_vector
          (mapAccess ⟨thread_id_all_threads, name⟩ s._measurements).1)) ∧
      (∀ vec : List (measurement α),
        container_to_vector (Sum.inl vec) = vec.map some) ∧
      (∀ (capacity : Nat) (ms : List (measurement α)),
        container_to_vector (Sum.inr (reachCache capacity ms))
          = ((ms.drop (ms.length
              - (reachCache capacity ms).size)).reverse).map some) := by
  intro s name
  refine ⟨?_, fun vec => rfl,
    fun capacity ms => reachCache_iterationReads capacity ms⟩
  intro hflag
  have hb : (flagRead name s._measured_for_each_thread).1 = false := hflag
  simp [get_measurements, measurement_storage.get_copy_of_measurements, hb,
    measurement_storage.is_measured_for_each_thread]

/-- Counterexample to C2 as stated: flattening a bounded history holding
the measurements `(t=0, 10)` then `(t=1, 20)` (oldest to newest) yields the
newest-first copy `[(t=1, 20), (t=0, 10)]`, not the claimed oldest-to-newest
order — and `fetch` hands exactly that newest-first copy out. -/
theorem C2_counterexample :
    container_to_vector
        (Sum.inr (reachCache 2 [(⟨0, 10⟩ : measurement Nat), ⟨1, 20⟩]))
      = [some ⟨1, 20⟩, some ⟨0, 10⟩] ∧
    container_to_vector
        (Sum.inr (reachCache 2 [(⟨0, 10⟩ : measurement Nat), ⟨1, 20⟩]))
      ≠ [some ⟨0, 10⟩, some ⟨1, 20⟩] ∧
    (get_measurements c2State "x").1
      = Except.ok [some ⟨1, 20⟩, some ⟨0, 10⟩] := by
  refine ⟨by decide, by decide, rfl⟩

/-- The default-inserting read of the flag map never changes what any later
read reports. -/
theorem flagRead_snd_view (name q : String) (fl : List (String × Bool)) :
    (flagRead q ((flagRead name fl).2)).1 = (flagRead q fl).1 := by
  induction fl with
  | nil =>
      show (flagRead q [(name, false)]).1 = (flagRead q []).1
      simp only [flagRead]
      split <;> rfl
  | cons kv rest ih =>
      by_cases h : kv.1 = name
      · have hsnd : (flagRead name (kv :: rest)).2 = kv :: rest := by
          simp [flagRead, h]
        rw [hsnd]
      · have hsnd : (flagRead name (kv :: rest)).2
            = kv :: (flagRead name rest).2 := by
          simp [flagRead, h]
        rw [hsnd]
        by_cases h2 : kv.1 = q
        · show (flagRead q (kv :: (flagRead name rest).2)).1
            = (flagRead q (kv :: rest)).1
          simp only [flagRead]
          rw [if_pos h2, if_pos h2]
        · show (flagRead q (kv :: (flagRead name rest).2)).1
            = (flagRead q (kv :: rest)).1
          simp only [flagRead]
          rw [if_neg h2, if_neg h2]
          exact ih

/-- Setting the flag of `name` makes reads of `name` report `true` and leaves
every other name's read unchanged. -/
theorem flagRead_fst_set (name q : String) (fl : List (String × Bool)) :
    (flagRead q (flagSet name fl)).1
      = if q = name then true else (flagRead q fl).1 := by
  induction fl with
  | nil =>
      show (flagRead q [(name, true)]).1 = _
      by_cases h : q = name
      · subst h
        simp [flagRead]
      · have hn : ¬ name = q := fun hh => h hh.symm
        simp [flagRead, hn, h]
  | cons kv rest ih =>
      by_cases h : kv.1 = name
      · have hs : flagSet name (kv :: rest) = (kv.1, true) :: rest := by
          simp [flagSet, h]
        rw [hs]
        by_cases h2 : q = name
        · have hk : kv.1 = q := h.trans h2.symm
          simp [flagRead, hk, h2]
        · have hkq : ¬ kv.1 = q := fun hh => h2 (hh.symm.trans h)
          simp [flagRead, hkq, h2]
      · have hs : flagSet name (kv :: rest) = kv :: flagSet name rest := by
          simp [flagSet, h]
        rw [hs]
        by_cases h2 : kv.1 = q
        · have hqn : ¬ q = name := fun hh => h (by rw [h2, hh])
          simp [flagRead, h2, hqn]
        · simp [flagRead, h2, ih]

/-- `markThreadSplit(name)` makes the thread-split view of `name` true. -/
theorem flagView_stepOp_mark {α : Type} (s : measurement_storage α)
    (name : String) :
    flagView (stepOp s (RegistryOp.markThreadSplit name)) name = true := by
  show (flagRead name (flagSet name s._measured_for_each_thread)).1 = true
  rw [flagRead_fst_set]
  simp

/-- Every registry operation other than `markThreadSplit` of the very name
leaves the thread-split view of that name unchanged. -/
theorem flagView_stepOp_other {α : Type} (s : measurement_storage α)
    (op : RegistryOp α) (q : String)
    (h : op ≠ RegistryOp.markThreadSplit q) :
    flagView (stepOp s op) q = flagView s q := by
  cases op with
  | record name v ts caller => exact flagRead_snd_view name q _
  | fetch name =>
      show flagView (get_measurements s name).2 q = flagView s q
      simp only [get_measurements]
      split
      · exact flagRead_snd_view name q _
      · exact flagRead_snd_view name q _
  | fetchForThread name tid =>
      show flagView (get_measurements_for_thread s name tid).2 q
        = flagView s q
      simp only [get_measurements_for_thread]
      split
      · exact flagRead_snd_view name q _
      · exact flagRead_snd_view name q _
  | fetchForAllThreads name =>
      show flagView (get_measurements_for_all_threads s name).2 q
        = flagView s q
      simp only [get_measurements_for_all_threads]
      split
      · exact flagRead_snd_view name q _
      · exact flagRead_snd_view name q _
  | clearAll => rfl
  | clearByName name => rfl
  | setCapacity name sz => rfl
  | markThreadSplit name =>
      have hq : ¬ q = name := by
        intro hh
        exact h (by rw [hh])
      show (flagRead q (flagSet name s._measured_for_each_thread)).1 = _
      rw [flagRead_fst_set, if_neg hq]
      rfl
  | isThreadSplit name => exact flagRead_snd_view name q _

/-- Once false, the thread-split view of a name stays false along any
operation sequence that never marks that name. -/
theorem flagView_runOps_false {α : Type} (name : String)
    (ops : List (RegistryOp α)) :
    ∀ s : measurement_storage α, flagView s name = false →
      (∀ op ∈ ops, op ≠ RegistryOp.markThreadSplit name) →
      flagView (runOps s ops) name = false := by
  induction ops with
  | nil => intro s hs _; exact hs
  | cons op rest ih =>
      intro s hs hops
      show flagView (runOps (stepOp s op) rest) name = false
      apply ih
      · rw [flagView_stepOp_other s op name
          (hops op (List.mem_cons_self op rest))]
        exact hs
      · intro o ho
        exact hops o (List.mem_cons_of_mem _ ho)

/-- C6, one-way thread-split invariant: once the flag of a name is true, no
sequence of registry operations (record, the three fetch variants, clearAll,
clearByName, setCapacity, markThreadSplit, isThreadSplit) ever makes it
false again; and starting from the initial registry, a name never marked
reads as not thread-split. -/
theorem C6_thread_split_one_way {α : Type} :
    (∀ (s : measurement_storage α) (ops : List (RegistryOp α))
        (name : String),
      flagView s name = true → flagView (runOps s ops) name = true) ∧
    (∀ (ops : List (RegistryOp α)) (name : String),
      (∀ op ∈ ops, op ≠ RegistryOp.markThreadSplit name) →
      flagView (runOps (measurement_storage.init α) ops) name = false) := by
  constructor
  · intro s ops
    induction ops generalizing s with
    | nil => intro name h; exact h
    | cons op rest ih =>
        intro name h
        show flagView (runOps (stepOp s op) rest) name = true
        apply ih
        by_cases hmark : op = RegistryOp.markThreadSplit name
        · rw [hmark]
          exact flagView_stepOp_mark s name
        · rw [flagView_stepOp_other s op name hmark]
          exact h
  · intro ops name hops
    exact flagView_runOps_false name ops _ rfl hops

/-- C5, mode-mismatch errors: `fetch` fails with the invalid-mode error
exactly when the name is currently thread-split, while `fetchForThread`
(for any thread id) and `fetchForAllThreads` fail with it exactly when the
name is not; in particular a fetch right after `markThreadSplit(name)`
fails. -/
theorem C5_mode_mismatch {α : Type} :
    ∀ (s : measurement_storage α) (name : String)
      (thread_id : thread_id_t),
      ((get_measurements s name).1
          = Except.error RegistryError.invalid_mode
        ↔ flagView s name = true) ∧
      ((get_measurements_for_thread s name thread_id).1
          = Except.error RegistryError.invalid_mode
        ↔ flagView s name = false) ∧
      ((get_measurements_for_all_threads s name).1
          = Except.error RegistryError.invalid_mode
        ↔ flagView s name = false) ∧
      (get_measurements (measure_for_each_thread s name) name).1
        = Except.error RegistryError.invalid_mode := by
  intro s name thread_id
  have hset : (flagRead name
      (flagSet name s._measured_for_each_thread)).1 = true := by
    rw [flagRead_fst_set]
    simp
  by_cases hb : (flagRead name s._measured_for_each_thread).1
  · refine ⟨?_, ?_, ?_, ?_⟩ <;>
      simp [get_measurements, get_measurements_for_thread,
        get_measurements_for_all_threads, measure_for_each_thread,
        measurement_storage.set_measured_for_each_thread,
        measurement_storage.is_measured_for_each_thread, flagView, hb, hset]
  · have hb' : (flagRead name s._measured_for_each_thread).1 = false := by
      simpa using hb
    refine ⟨?_, ?_, ?_, ?_⟩ <;>
      simp [get_measurements, get_measurements_for_thread,
        get_measurements_for_all_threads, measure_for_each_thread,
        measurement_storage.set_measured_for_each_thread,
        measurement_storage.is_measured_for_each_thread, flagView, hb', hset]

/-- Dropping the entries of one name from the measurement map: lookups of
keys with that name become `none`, all other lookups are unchanged. -/
theorem mapFind_filter_name {α : Type} (name : String)
    (m : List (measurement_lookup × measurement_container_t α))
    (k : measurement_lookup) :
    mapFind k (m.filter fun kv => kv.1.name ≠ name)
      = if k.name = name then none else mapFind k m := by
  induction m with
  | nil =>
      show mapFind k [] = _
      by_cases hk : k.name = name
      · rw [if_pos hk]
        rfl
      · rw [if_neg hk]
  | cons kv rest ih =>
      by_cases hkv : kv.1.name = name
      · rw [List.filter_cons, if_neg (by simp [hkv])]
        rw [ih]
        by_cases hk : k.name = name
        · rw [if_pos hk, if_pos hk]
        · rw [if_neg hk, if_neg hk]
          show mapFind k rest = mapFind k (kv :: rest)
          simp only [mapFind]
          rw [if_neg (fun hh : kv.1 = k => hk (by rw [← hh]; exact hkv))]
      · rw [List.filter_cons, if_pos (by simp [hkv])]
        simp only [mapFind]
        by_cases hek : kv.1 = k
        · have hkname : ¬ k.name = name := by
            rw [← hek]; exact hkv
          rw [if_pos hek, if_neg hkname, if_pos hek]
        · rw [if_neg hek, ih]
          by_cases hk : k.name = name
          · rw [if_pos hk, if_pos hk]
          · rw [if_neg hk, if_neg hk, if_neg hek]

/-- C9, frame property of `clearByName` (against the spec-modelled
`measurement_storage.clear_name`; the source's `clear(name)` member is
ill-formed C++, see there): clearing a name removes exactly the map entries
whose key carries that name — lookups under every thread scope of that name
become empty — while every entry of a different name, and the thread-split
flag map, are left untouched. -/
theorem C9_clear_by_name_frame {α : Type} :
    ∀ (s : measurement_storage α) (name : String)
      (k : measurement_lookup),
      mapFind k (s.clear_name name)._measurements
        = (if k.name = name then none else mapFind k s._measurements) ∧
      (s.clear_name name)._measured_for_each_thread
        = s._measured_for_each_thread :=
  fun s name k => ⟨mapFind_filter_name name s._measurements k, rfl⟩

/-- `insert_measurement` keeps the unbounded-vector alternative unbounded. -/
theorem insert_measurement_inl {α : Type} (m : measurement α)
    (c : measurement_container_t α) (hc : ∃ v, c = Sum.inl v) :
    ∃ v, insert_measurement m c = Sum.inl v := by
  obtain ⟨v, hv⟩ := hc
  rw [hv]
  exact ⟨v ++ [m], rfl⟩

/-- `mapUpdate` preserves all-unbounded maps whenever the update function
preserves the unbounded alternative. -/
theorem unbounded_mapUpdate {α : Type} (k : measurement_lookup)
    (f : measurement_container_t α → measurement_container_t α)
    (hf : ∀ c, (∃ v, c = Sum.inl v) → ∃ v, f c = Sum.inl v) :
    ∀ m : List (measurement_lookup × measurement_container_t α),
      (∀ kv ∈ m, ∃ v, kv.2 = Sum.inl v) →
      ∀ kv ∈ mapUpdate k f m, ∃ v, kv.2 = Sum.inl v := by
  intro m
  induction m with
  | nil =>
      intro _ kv hkv
      simp only [mapUpdate, List.mem_singleton] at hkv
      rw [hkv]
      exact hf _ ⟨[], rfl⟩
  | cons kv0 rest ih =>
      intro hm kv hkv
      simp only [mapUpdate] at hkv
      by_cases h : kv0.1 = k
      · rw [if_pos h] at hkv
        rcases List.mem_cons.mp hkv with h1 | h1
        · rw [h1]
          exact hf _ (hm kv0 (List.mem_cons_self _ _))
        · exact hm kv (List.mem_cons_of_mem _ h1)
      · rw [if_neg h] at hkv
        rcases List.mem_cons.mp hkv with h1 | h1
        · rw [h1]
          exact hm kv0 (List.mem_cons_self _ _)
        · exact ih (fun x hx => hm x (List.mem_cons_of_mem _ hx)) kv h1

/-- The default-creating access `_measurements[k]` preserves all-unbounded
maps (the created entry is the empty vector). -/
theorem unbounded_mapAccess {α : Type} (k : measurement_lookup) :
    ∀ m : List (measurement_lookup × measurement_container_t α),
      (∀ kv ∈ m, ∃ v, kv.2 = Sum.inl v) →
      ∀ kv ∈ (mapAccess k m).2, ∃ v, kv.2 = Sum.inl v := by
  intro m
  induction m with
  | nil =>
      intro _ kv hkv
      simp only [mapAccess, List.mem_singleton] at hkv
      rw [hkv]
      exact ⟨[], rfl⟩
  | cons kv0 rest ih =>
      intro hm kv hkv
      simp only [mapAccess] at hkv
      by_cases h : kv0.1 = k
      · rw [if_pos h] at hkv
        exact hm kv hkv
      · rw [if_neg h] at hkv
        rcases List.mem_cons.mp hkv with h1 | h1
        · rw [h1]
          exact hm kv0 (List.mem_cons_self _ _)
        · exact ih (fun x hx => hm x (List.mem_cons_of_mem _ hx)) kv h1

/-- Every registry operation preserves the all-unbounded invariant. -/
theorem unboundedOnly_stepOp {α : Type} (s : measurement_storage α)
    (op : RegistryOp α) (h : unboundedOnly s) :
    unboundedOnly (stepOp s op) := by
  cases op with
  | record name v ts caller =>
      exact unbounded_mapUpdate _ _ (insert_measurement_inl _)
        s._measurements h
  | fetch name =>
      show unboundedOnly (get_measurements s name).2
      simp only [get_measurements]
      split
      · exact h
      · exact unbounded_mapAccess _ s._measurements h
  | fetchForThread name tid =>
      show unboundedOnly (get_measurements_for_thread s name tid).2
      simp only [get_measurements_for_thread]
      split
      · exact unbounded_mapAccess _ s._measurements h
      · exact h
  | fetchForAllThreads name =>
      show unboundedOnly (get_measurements_for_all_threads s name).2
      simp only [get_measurements_for_all_threads]
      split
      · exact h
      · exact h
  | clearAll =>
      intro kv hkv
      cases hkv
  | clearByName name =>
      intro kv hkv
      exact h kv (List.mem_filter.mp hkv).1
  | setCapacity name sz => exact h
  | markThreadSplit name => exact h
  | isThreadSplit name => exact h

/-- C10, the bounded variant is unreachable: `setCapacity` leaves the entire
registry state unchanged for every name and size, and starting from the
initial registry every sequence of public operations keeps every measurement
container in the unbounded-vector alternative of the union. -/
theorem C10_unbounded_only {α : Type} :
    (∀ (s : measurement_storage α) (name : String) (cache_size : Nat),
      set_cache_size s name cache_size = s) ∧
    (∀ ops : List (RegistryOp α),
      unboundedOnly (runOps (measurement_storage.init α) ops)) := by
  constructor
  · intro s name cache_size
    rfl
  · intro ops
    have hrun : ∀ s : measurement_storage α, unboundedOnly s →
        unboundedOnly (runOps s ops) := by
      induction ops with
      | nil => intro s hs; exact hs
      | cons op rest ih =>
          intro s hs
          exact ih _ (unboundedOnly_stepOp s op hs)
    exact hrun _ (fun kv hkv => absurd hkv (List.not_mem_nil kv))

/-- `retFind` after `retSet`: the assigned thread id reads back the assigned
copy, every other thread id reads as before. -/
theorem retFind_retSet {α : Type} (t q : thread_id_t)
    (v : List (Option (measurement α))) :
    ∀ r : List (thread_id_t × List (Option (measurement α))),
      retFind q (retSet t v r) = if t = q then some v else retFind q r := by
  intro r
  induction r with
  | nil => rfl
  | cons kv rest ih =>
      simp only [retSet]
      by_cases h : kv.1 = t
      · rw [if_pos h]
        simp only [retFind]
        by_cases h2 : t = q
        · rw [if_pos (h.trans h2), if_pos h2]
        · have hkq : ¬ kv.1 = q := fun hh => h2 (h.symm.trans hh)
          rw [if_neg hkq, if_neg h2, if_neg hkq]
      · rw [if_neg h]
        simp only [retFind]
        by_cases h2 : kv.1 = q
        · have htq : ¬ t = q := fun hh => h (h2.trans hh.symm)
          rw [if_pos h2, if_neg htq, if_pos h2]
        · rw [if_neg h2, ih, if_neg h2]

/-- Looking up a key after appending one entry at the end of the map. -/
theorem mapFind_append {α : Type} (k : measurement_lookup)
    (kv : measurement_lookup × measurement_container_t α) :
    ∀ m, mapFind k (m ++ [kv])
      = (match mapFind k m with
        | some c => some c
        | none => if kv.1 = k then some kv.2 else none) := by
  intro m
  induction m with
  | nil => rfl
  | cons kv0 rest ih =>
      simp only [List.cons_append, List.append_eq, mapFind]
      by_cases h : kv0.1 = k
      · rw [if_pos h, if_pos h]
      · rw [if_neg h, if_neg h, ih]

/-- A key that occurs in no entry looks up to nothing. -/
theorem mapFind_eq_none_of_not_mem {α : Type} (k : measurement_lookup) :
    ∀ m : List (measurement_lookup × measurement_container_t α),
      k ∉ m.map Prod.fst → mapFind k m = none := by
  intro m
  induction m with
  | nil => intro _; rfl
  | cons kv rest ih =>
      intro hk
      simp only [List.map_cons, List.mem_cons] at hk
      push_neg at hk
      simp only [mapFind]
      rw [if_neg (fun hh : kv.1 = k => hk.1 hh.symm)]
      exact ih hk.2

/-- Characterisation of `get_copy_of_measurements_for_all_threads`'s result
map on a measurement map with unique keys: thread id `t` is present exactly
when the key `(t, name)` has an entry — the `ALL_THREADS` sentinel included —
and its value is `container_to_vector` of that entry. -/
theorem fetchAll_lookup {α : Type} (name : String) :
    ∀ m : List (measurement_lookup × measurement_container_t α),
      (m.map Prod.fst).Nodup →
      ∀ t : thread_id_t,
        retFind t (m.foldl (fun ret kv =>
            if kv.1.name ≠ name then ret
            else retSet kv.1.thread_id (container_to_vector kv.2) ret) [])
          = (mapFind ⟨t, name⟩ m).map container_to_vector := by
  intro m
  induction m using List.reverseRecOn with
  | nil => intro _ t; rfl
  | append_singleton ws kv ih =>
      intro hnd t
      have hmap : ((ws ++ [kv]).map Prod.fst)
          = ws.map Prod.fst ++ [kv.1] := by simp
      rw [hmap] at hnd
      obtain ⟨hnd1, hnd2, hdisj⟩ := List.nodup_append.mp hnd
      rw [List.foldl_append, List.foldl_cons, List.foldl_nil]
      rw [mapFind_append]
      by_cases hname : kv.1.name = name
      · rw [if_neg (fun hh => hh hname)]
        rw [retFind_retSet]
        by_cases ht : kv.1.thread_id = t
        · rw [if_pos ht]
          have hk : kv.1 = (⟨t, name⟩ : measurement_lookup) := by
            rw [← ht, ← hname]
          have hnone : mapFind (⟨t, name⟩ : measurement_lookup) ws
              = none := by
            apply mapFind_eq_none_of_not_mem
            intro hmem
            exact hdisj hmem (by rw [← hk]; exact List.mem_singleton_self kv.1)
          rw [hnone, if_pos hk]
          rfl
        · rw [if_neg ht, ih hnd1 t]
          cases hm : mapFind (⟨t, name⟩ : measurement_lookup) ws with
          | some c => rfl
          | none =>
              rw [if_neg (fun hh : kv.1 = ⟨t, name⟩ => ht (by rw [hh]))]
      · rw [if_pos hname]
        rw [ih hnd1 t]
        cases hm : mapFind (⟨t, name⟩ : measurement_lookup) ws with
        | some c => rfl
        | none =>
            rw [if_neg (fun hh : kv.1 = ⟨t, name⟩ => hname (by rw [hh]))]

/-- C8 as amended: for a thread-split name, `fetchForAllThreads` hands out
one independent copy (`container_to_vector`) per thread-scope KEY that has an
entry under the name — that is one entry per thread that ever recorded under
it, PLUS the `ALL_THREADS` sentinel entry whenever values were recorded
before `markThreadSplit(name)`; pre-switch data thus does appear in the
result, keyed by the sentinel id. -/
theorem C8_fetch_all_threads {α : Type} (s : measurement_storage α)
    (name : String)
    (hnd : (s._measurements.map Prod.fst).Nodup)
    (hsplit : flagView s name = true) :
    (get_measurements_for_all_threads s name).1
      = Except.ok (s.get_copy_of_measurements_for_all_threads name) ∧
    ∀ t : thread_id_t,
      retFind t (s.get_copy_of_measurements_for_all_threads name)
        = (mapFind ⟨t, name⟩ s._measurements).map container_to_vector := by
  constructor
  · have hb : (flagRead name s._measured_for_each_thread).1 = true := hsplit
    simp [get_measurements_for_all_threads,
      measurement_storage.is_measured_for_each_thread,
      measurement_storage.get_copy_of_measurements_for_all_threads, hb]
  · intro t
    exact fetchAll_lookup name s._measurements hnd t

/-- Witness for the amended C8 at the concrete scenario `c8Scenario`. -/
theorem C8_fetch_all_threads_witness :
    (get_measurements_for_all_threads c8Scenario "x").1
      = Except.ok (c8Scenario.get_copy_of_measurements_for_all_threads "x") ∧
    ∀ t : thread_id_t,
      retFind t (c8Scenario.get_copy_of_measurements_for_all_threads "x")
        = (mapFind ⟨t, "x"⟩ c8Scenario._measurements).map
            container_to_vector :=
  C8_fetch_all_threads c8Scenario "x" (by decide) (by decide)

/-- Counterexample to C8 as stated: in `c8Scenario` the value 1 was recorded
under `ALL_THREADS` before the thread-split switch, yet `fetchForAllThreads`
returns it — keyed by the `thread_id_all_threads` sentinel — alongside the
real thread 5's entry, instead of omitting it. -/
theorem C8_counterexample :
    (get_measurements_for_all_threads c8Scenario "x").1
      = Except.ok [(thread_id_all_threads, [some ⟨0, 1⟩]),
          (5, [some ⟨1, 2⟩])] ∧
    retFind thread_id_all_threads
        (c8Scenario.get_copy_of_measurements_for_all_threads "x")
      = some [some ⟨0, 1⟩] ∧
    c8Scenario.get_copy_of_measurements_for_all_threads "x"
      ≠ [(5, [some ⟨1, 2⟩])] := by
  refine ⟨rfl, by decide, by decide⟩
